import Mathlib

/-!
Verification of the riscv-stack crate (src/lib.rs): per-hart stack region
resolution, stack usage metrics, stack painting with a sentinel word, and the
two watermark scanners (linear scan and binary search).

Shallow embedding conventions:
  - Addresses and usize values are natural numbers; on the rv32 target a usize
    is 32 bits wide, so pointer values are < 2 ^ 32 and that bound appears as a
    hypothesis where the bit mask of map_addr matters.
  - Memory is a function from byte address to the 32-bit word stored at that
    (4-byte aligned) address. The code only ever loads and stores whole words
    at 4-byte aligned addresses.
  - The hardware reads (mhartid CSR, sp register) and the two linker symbols
    (_stack_start, _hart_stack_size) become explicit parameters: hartid, sp,
    topOfStacks and hartStackSize. Every library function recomputes stack()
    from these, exactly as the code does.
  - Functions named after the Rust functions are direct translations of the
    Rust bodies.
-/

/-- Claim source lib.rs line 7: the value used to paint the stack. -/
def STACK_PAINT_VALUE : Nat := 0xCCCCCCCC

/-- Rust core::ops::Range with raw pointer endpoints, as returned by stack().
The field named end in Rust is called stop here because end is a Lean keyword.
Both fields are byte addresses. -/
structure Region where
  start : Nat
  stop : Nat
deriving DecidableEq, Repr

/-- The map_addr closure of stack() at lib.rs lines 56 and 57: p & !0b11.
On the rv32 target !0b11 as a usize is 0xFFFFFFFC. -/
def alignDown4 (x : Nat) : Nat := x &&& 0xFFFFFFFC

/-- Translation of stack() at lib.rs lines 19 to 60. The parameters are the
mhartid CSR value, the address of the _stack_start symbol and the address of
the _hart_stack_size symbol (its address encodes the per-hart size).
start = _stack_start - hartid * stksz, end = start - stksz, and both bounds
are masked with !0b11 afterwards. The byte_sub calls require that the
subtractions do not underflow (a linker-script precondition), which theorems
carry as a hypothesis. -/
def stack (hartid topOfStacks hartStackSize : Nat) : Region :=
  ⟨alignDown4 (topOfStacks - hartid * hartStackSize),
   alignDown4 (topOfStacks - hartid * hartStackSize - hartStackSize)⟩

/-- Translation of stack_rev() at lib.rs lines 68 to 72:
stack().end.add(1)..stack().start.add(1). The pointers are *mut u32, so
add(1) advances by one 4-byte word. -/
def stack_rev (hartid topOfStacks hartStackSize : Nat) : Region :=
  ⟨(stack hartid topOfStacks hartStackSize).stop + 4,
   (stack hartid topOfStacks hartStackSize).start + 4⟩

/-- Translation of stack_size() at lib.rs lines 88 to 91:
stack().start.byte_offset_from_unsigned(stack().end). The unsigned distance
has the safety precondition start >= end, which holds for every region the
code produces. -/
def stack_size (hartid topOfStacks hartStackSize : Nat) : Nat :=
  (stack hartid topOfStacks hartStackSize).start -
    (stack hartid topOfStacks hartStackSize).stop

/-- Translation of current_stack_in_use() at lib.rs lines 95 to 98:
stack().start.byte_offset_from_unsigned(current_stack_ptr()). The sp register
value is the explicit parameter sp; the safety precondition sp <= start
appears as a hypothesis on theorems that use this function. -/
def current_stack_in_use (hartid topOfStacks hartStackSize sp : Nat) : Nat :=
  (stack hartid topOfStacks hartStackSize).start - sp

/-- Translation of current_stack_free() at lib.rs lines 104 to 106:
stack_size().saturating_sub(current_stack_in_use()). Saturating subtraction
on usize is exactly truncated subtraction on Nat. -/
def current_stack_free (hartid topOfStacks hartStackSize sp : Nat) : Nat :=
  stack_size hartid topOfStacks hartStackSize -
    current_stack_in_use hartid topOfStacks hartStackSize sp

/-- Translation of current_stack_fraction() at lib.rs lines 110 to 112:
current_stack_in_use() as f32 / stack_size() as f32. The f32 division is
modelled as exact rational division; for the dyadic values the claims test
(2048 / 4096) the f32 computation is exact, so the model agrees with the code
there. When stack_size is zero the Rust value is NaN while the rational model
yields the junk value 0; no theorem relies on that case. -/
def current_stack_fraction (hartid topOfStacks hartStackSize sp : Nat) : ℚ :=
  (current_stack_in_use hartid topOfStacks hartStackSize sp : ℚ) /
    (stack_size hartid topOfStacks hartStackSize : ℚ)

/-- Store of one 32-bit word at byte address a: the sw instruction truncates
the register value to 32 bits. Used to model the test write that the spec
describes for the watermark scenario. -/
def writeWord (m : Nat → Nat) (a v : Nat) : Nat → Nat :=
  fun x => if x = a then v % 2 ^ 32 else m x

/-- Loop of repaint_stack() at lib.rs lines 127 to 137, acting on a memory
state: while ptr < sp, store STACK_PAINT_VALUE at ptr and advance ptr by 4
(the bgeu exit test runs before each store). -/
def repaintFrom (sp ptr : Nat) (m : Nat → Nat) : Nat → Nat :=
  if ptr < sp then
    repaintFrom sp (ptr + 4) (fun a => if a = ptr then STACK_PAINT_VALUE else m a)
  else m
termination_by sp - ptr
decreasing_by omega

/-- Translation of repaint_stack() at lib.rs lines 124 to 138: the paint loop
starts at stack().end.add(1), one word above the low boundary. -/
def repaint_stack (hartid topOfStacks hartStackSize sp : Nat)
    (m : Nat → Nat) : Nat → Nat :=
  repaintFrom sp ((stack hartid topOfStacks hartStackSize).stop + 4) m

/-- Loop of stack_painted() at lib.rs lines 164 to 177, returning the final
cursor: exit with ptr when sp <= ptr; otherwise load the word at ptr, exit
with ptr when it differs from STACK_PAINT_VALUE, else advance by 4. -/
def scanFrom (sp : Nat) (m : Nat → Nat) (ptr : Nat) : Nat :=
  if sp ≤ ptr then ptr
  else if m ptr ≠ STACK_PAINT_VALUE then ptr
  else scanFrom sp m (ptr + 4)
termination_by sp - ptr
decreasing_by omega

/-- Translation of stack_painted() at lib.rs lines 152 to 180: the cursor
starts at stack().end.add(1) and the result is
res.byte_offset_from_unsigned(stack().end). -/
def stack_painted (hartid topOfStacks hartStackSize sp : Nat)
    (m : Nat → Nat) : Nat :=
  scanFrom sp m ((stack hartid topOfStacks hartStackSize).stop + 4) -
    (stack hartid topOfStacks hartStackSize).stop

/-- Size in bytes of a usize on the modelled rv32 target: the
size_of::<usize>() factor of stack_painted_binary() at lib.rs line 204. -/
def usizeBytes : Nat := 4

/-- Rust slice::partition_point via binary_search_by (the standard library
implementation): maintain left and right, probe mid = left + (right - left)/2,
move left past mid when the predicate holds, otherwise close right down to
mid; the result is the final left. The slice element at index i is abstracted
as the predicate applied to i. -/
def partitionPointAux (pred : Nat → Bool) (left right : Nat) : Nat :=
  if left < right then
    if pred (left + (right - left) / 2) then
      partitionPointAux pred (left + (right - left) / 2 + 1) right
    else
      partitionPointAux pred left (left + (right - left) / 2)
  else left
termination_by right - left
decreasing_by
  all_goals omega

/-- Translation of stack_painted_binary() at lib.rs lines 198 to 205: build a
slice of current_stack_free() / 4 words based at stack().end.add(1) (so word
i sits at byte address end + 4 + 4*i), take
partition_point(|&word| word == STACK_PAINT_VALUE), and scale the resulting
word index by size_of::<usize>(). -/
def stack_painted_binary (hartid topOfStacks hartStackSize sp : Nat)
    (m : Nat → Nat) : Nat :=
  partitionPointAux
    (fun i => m ((stack hartid topOfStacks hartStackSize).stop + 4 + 4 * i) ==
      STACK_PAINT_VALUE)
    0 (current_stack_free hartid topOfStacks hartStackSize sp / 4) * usizeBytes

/-- Memory state used for the claim C2 failing input: the word at byte
address 0 (the region low boundary itself) holds the sentinel and every other
word holds 0, the monotone configuration with watermark offset k = 4 for the
region of hart 0 with topOfStacks = 8 and hartStackSize = 8. -/
def memC2 : Nat → Nat := fun a => if a = 0 then STACK_PAINT_VALUE else 0

/-- Masking a usize with !0b11 rounds it down to a multiple of 4, as long as
the value fits in 32 bits (on the rv32 target every usize does). -/
theorem alignDown4_eq (x : Nat) (hx : x < 2 ^ 32) : alignDown4 x = x - x % 4 := by
  have hmask : (0xFFFFFFFC : Nat) = (2 ^ 30 - 1) <<< 2 := by
    norm_num [Nat.shiftLeft_eq]
  have hrhs : x - x % 4 = (x >>> 2) <<< 2 := by
    rw [Nat.shiftRight_eq_div_pow, Nat.shiftLeft_eq]
    omega
  rw [alignDown4, hmask, hrhs]
  apply Nat.eq_of_testBit_eq
  intro i
  rw [Nat.testBit_and, Nat.testBit_shiftLeft, Nat.testBit_shiftLeft, Nat.testBit_shiftRight,
    Nat.testBit_two_pow_sub_one]
  rcases Nat.lt_or_ge i 2 with hi | hi
  · have h1 : ¬ (i ≥ 2) := by omega
    simp [h1]
  · rcases Nat.lt_or_ge i 32 with hi32 | hi32
    · have h2 : i - 2 < 30 := by omega
      have h3 : 2 + (i - 2) = i := by omega
      simp [hi, h2, h3]
    · have hb : x.testBit i = false :=
        Nat.testBit_lt_two_pow
          (lt_of_lt_of_le hx (Nat.pow_le_pow_right (by norm_num) hi32))
      have h2 : ¬ (i - 2 < 30) := by omega
      have h3 : 2 + (i - 2) = i := by omega
      simp [h2, h3, hb]

/-- The result of the !0b11 mask is always a multiple of 4, with no size
restriction on the input. -/
theorem four_dvd_alignDown4 (x : Nat) : 4 ∣ alignDown4 x := by
  apply Nat.dvd_of_mod_eq_zero
  have h1 : alignDown4 x % 4 = alignDown4 x &&& (2 ^ 2 - 1) := by
    rw [Nat.and_pow_two_sub_one_eq_mod]
  have h2 : (0xFFFFFFFC &&& (2 ^ 2 - 1) : Nat) = 0 := by decide
  rw [h1, alignDown4, Nat.and_assoc, h2, Nat.and_zero]

/-- The low boundary of a region never exceeds its start. -/
theorem stack_stop_le_start (h T z : Nat) (hT : T < 2 ^ 32) :
    (stack h T z).stop ≤ (stack h T z).start := by
  show alignDown4 (T - h * z - z) ≤ alignDown4 (T - h * z)
  rw [alignDown4_eq _ (by omega), alignDown4_eq _ (by omega)]
  omega

/-- Exit equation of the stack_painted() loop: the cursor has reached sp. -/
theorem scanFrom_stop {sp ptr : Nat} (m : Nat → Nat) (h : sp ≤ ptr) :
    scanFrom sp m ptr = ptr := by
  unfold scanFrom
  simp [h]

/-- Exit equation of the stack_painted() loop: the word under the cursor is
not the sentinel. -/
theorem scanFrom_hit {sp ptr : Nat} {m : Nat → Nat} (h : ¬ sp ≤ ptr)
    (hm : m ptr ≠ STACK_PAINT_VALUE) : scanFrom sp m ptr = ptr := by
  unfold scanFrom
  simp [h, hm]

/-- Step equation of the stack_painted() loop: sentinel under the cursor,
advance one word. -/
theorem scanFrom_cont {sp ptr : Nat} {m : Nat → Nat} (h : ¬ sp ≤ ptr)
    (hm : m ptr = STACK_PAINT_VALUE) :
    scanFrom sp m ptr = scanFrom sp m (ptr + 4) := by
  rw [scanFrom]
  simp [h, hm]

/-- The scan cursor never moves backwards: the result of the loop is at least
the initial cursor position. -/
theorem le_scanFrom (sp : Nat) (m : Nat → Nat) :
    ∀ n ptr, sp - ptr ≤ n → ptr ≤ scanFrom sp m ptr := by
  intro n
  induction n with
  | zero =>
    intro ptr hn
    exact (scanFrom_stop m (by omega)).ge
  | succ n ih =>
    intro ptr _
    by_cases hsp : sp ≤ ptr
    · exact (scanFrom_stop m hsp).ge
    · by_cases hm : m ptr = STACK_PAINT_VALUE
      · rw [scanFrom_cont hsp hm]
        have := ih (ptr + 4) (by omega)
        omega
      · exact (scanFrom_hit hsp hm).ge

/-- Where the linear scan stops: if every word on the 4-byte chain strictly
below q holds the sentinel and q is either sp itself or a non-sentinel word
below sp, the loop returns exactly q. -/
theorem scanFrom_reaches (sp : Nat) (m : Nat → Nat) :
    ∀ n ptr q, q - ptr ≤ n → ptr ≤ q → q ≤ sp → 4 ∣ (q - ptr) →
      (∀ a, ptr ≤ a → a < q → 4 ∣ (a - ptr) → m a = STACK_PAINT_VALUE) →
      (q = sp ∨ m q ≠ STACK_PAINT_VALUE) →
      scanFrom sp m ptr = q := by
  intro n
  induction n with
  | zero =>
    intro ptr q hn h1 h2 h3 h4 h5
    have hq : q = ptr := by omega
    subst hq
    rcases h5 with h5 | h5
    · exact scanFrom_stop m (by omega)
    · by_cases hsp : sp ≤ q
      · exact scanFrom_stop m hsp
      · exact scanFrom_hit hsp h5
  | succ n ih =>
    intro ptr q hn h1 h2 h3 h4 h5
    by_cases hq : q = ptr
    · subst hq
      rcases h5 with h5 | h5
      · exact scanFrom_stop m (by omega)
      · by_cases hsp : sp ≤ q
        · exact scanFrom_stop m hsp
        · exact scanFrom_hit hsp h5
    · have h7 : ptr + 4 ≤ q := by omega
      have hsp : ¬ sp ≤ ptr := by omega
      rw [scanFrom_cont hsp (h4 ptr (Nat.le_refl _) (by omega) (by omega))]
      apply ih
      · omega
      · omega
      · exact h2
      · omega
      · intro a ha1 ha2 ha3
        exact h4 a (by omega) ha2 (by omega)
      · exact h5

/-- Pointwise characterisation of the paint loop: an address receives the
sentinel exactly when it lies on the 4-byte chain starting at the initial
cursor and is below sp; every other address keeps its old value. -/
theorem repaintFrom_eq (sp : Nat) :
    ∀ n ptr m a, sp - ptr ≤ n →
      repaintFrom sp ptr m a =
        if ptr ≤ a ∧ a < sp ∧ 4 ∣ (a - ptr) then STACK_PAINT_VALUE else m a := by
  intro n
  induction n with
  | zero =>
    intro ptr m a hn
    rw [repaintFrom]
    have hlt : ¬ ptr < sp := by omega
    rw [if_neg hlt, if_neg]
    rintro ⟨ha1, ha2, -⟩
    omega
  | succ n ih =>
    intro ptr m a hn
    rw [repaintFrom]
    by_cases hlt : ptr < sp
    · rw [if_pos hlt, ih _ _ _ (by omega)]
      by_cases ha : a = ptr
      · have hno : ¬ (ptr + 4 ≤ a ∧ a < sp ∧ 4 ∣ (a - (ptr + 4))) := by
          rintro ⟨hh, -, -⟩
          omega
        have hyes : ptr ≤ a ∧ a < sp ∧ 4 ∣ (a - ptr) := ⟨by omega, by omega, by omega⟩
        rw [if_neg hno, if_pos hyes, if_pos ha]
      · have hiff : (ptr + 4 ≤ a ∧ a < sp ∧ 4 ∣ (a - (ptr + 4))) ↔
            (ptr ≤ a ∧ a < sp ∧ 4 ∣ (a - ptr)) := by
          constructor
          · rintro ⟨h1, h2, h3⟩
            exact ⟨by omega, h2, by omega⟩
          · rintro ⟨h1, h2, h3⟩
            exact ⟨by omega, h2, by omega⟩
        rw [if_congr hiff rfl rfl]
        by_cases hc : ptr ≤ a ∧ a < sp ∧ 4 ∣ (a - ptr)
        · rw [if_pos hc, if_pos hc]
        · rw [if_neg hc, if_neg hc, if_neg ha]
    · rw [if_neg hlt, if_neg]
      rintro ⟨ha1, ha2, -⟩
      omega

/-- On a partitioned input (predicate true exactly below N inside the searched
interval), the binary search of partition_point returns N. -/
theorem partitionPointAux_eq (pred : Nat → Bool) (N : Nat) :
    ∀ n left right, right - left ≤ n → left ≤ N → N ≤ right →
      (∀ i, left ≤ i → i < right → (pred i = true ↔ i < N)) →
      partitionPointAux pred left right = N := by
  intro n
  induction n with
  | zero =>
    intro left right hn h1 h2 _
    rw [partitionPointAux]
    have hlr : ¬ left < right := by omega
    rw [if_neg hlr]
    omega
  | succ n ih =>
    intro left right hn h1 h2 hp
    rw [partitionPointAux]
    by_cases hlr : left < right
    · rw [if_pos hlr]
      have hmid1 : left ≤ left + (right - left) / 2 := by omega
      have hmid2 : left + (right - left) / 2 < right := by omega
      by_cases hpm : pred (left + (right - left) / 2) = true
      · have hN : left + (right - left) / 2 < N := (hp _ hmid1 hmid2).mp hpm
        rw [if_pos hpm]
        apply ih
        · omega
        · omega
        · omega
        · intro i hi1 hi2
          exact hp i (by omega) hi2
      · have hN : ¬ left + (right - left) / 2 < N := fun hc =>
          hpm ((hp _ hmid1 hmid2).mpr hc)
        rw [if_neg hpm]
        apply ih
        · omega
        · omega
        · omega
        · intro i hi1 hi2
          exact hp i hi1 (by omega)
    · rw [if_neg hlr]
      omega

/-- Claim C3: for every hart id h, top-of-stacks address T and per-hart size z
with no underflow (h*z + z <= T, addresses in the 32-bit usize range),
stack() returns start = (T - h*z) rounded down to the nearest 4-byte boundary
and end = (T - h*z - z) rounded down to the nearest 4-byte boundary: the
rounding is applied after the subtraction and always downward. -/
theorem stack_bounds_round_down (h T z : Nat) (hT : T < 2 ^ 32)
    (hz : h * z + z ≤ T) :
    (stack h T z).start = (T - h * z) - (T - h * z) % 4 ∧
    (stack h T z).stop = (T - h * z - z) - (T - h * z - z) % 4 := by
  constructor
  · show alignDown4 (T - h * z) = _
    exact alignDown4_eq _ (by omega)
  · show alignDown4 (T - h * z - z) = _
    exact alignDown4_eq _ (by omega)

/-- Witness for claim C3 at hart 1, top of stacks 100, stack size 10:
start = 90 aligned down = 88 and end = 80 aligned down = 80. -/
theorem stack_bounds_round_down_wit :
    (stack 1 100 10).start = 88 ∧ (stack 1 100 10).stop = 80 := by
  have hw := stack_bounds_round_down 1 100 10 (by norm_num) (by norm_num)
  omega

/-- Claim C7: for every hart id, top-of-stacks address and per-hart size with
no underflow, the region returned by stack() has start >= end and both bounds
divisible by 4. The region is recomputed fresh on each call, so this holds
for every call. -/
theorem stack_ordered_and_aligned (h T z : Nat) (hT : T < 2 ^ 32)
    (hz : h * z + z ≤ T) :
    (stack h T z).stop ≤ (stack h T z).start ∧
    4 ∣ (stack h T z).start ∧ 4 ∣ (stack h T z).stop :=
  ⟨stack_stop_le_start h T z hT, four_dvd_alignDown4 _, four_dvd_alignDown4 _⟩

/-- Witness for claim C7 at hart 1, top of stacks 100, stack size 10. -/
theorem stack_ordered_and_aligned_wit :
    (stack 1 100 10).stop ≤ (stack 1 100 10).start ∧
    4 ∣ (stack 1 100 10).start ∧ 4 ∣ (stack 1 100 10).stop :=
  stack_ordered_and_aligned 1 100 10 (by norm_num) (by norm_num)

/-- Claim C8: stack_size() equals exactly start - end of the region returned
by stack() in the same context, and the unsigned difference does not
truncate, i.e. as integers it is the true nonnegative difference. -/
theorem stack_size_start_sub_end (h T z : Nat) (hT : T < 2 ^ 32)
    (hz : h * z + z ≤ T) :
    (stack_size h T z : Int) =
      ((stack h T z).start : Int) - ((stack h T z).stop : Int) ∧
    0 ≤ (stack_size h T z : Int) := by
  have hord := stack_stop_le_start h T z hT
  unfold stack_size
  omega

/-- Witness for claim C8 at hart 1, top of stacks 100, stack size 10. -/
theorem stack_size_start_sub_end_wit :
    (stack_size 1 100 10 : Int) =
      ((stack 1 100 10).start : Int) - ((stack 1 100 10).stop : Int) ∧
    0 ≤ (stack_size 1 100 10 : Int) :=
  stack_size_start_sub_end 1 100 10 (by norm_num) (by norm_num)

/-- Claim C6: stack_rev() is the ascending version of the same region:
its start is stack().end plus one word (4 bytes), its end is stack().start
plus one word, and with a valid configuration it is an ascending range.
Both accessors are computed from the same deterministic stack() value, so
they cannot disagree within one calling context. -/
theorem stack_rev_from_stack (h T z : Nat) (hT : T < 2 ^ 32)
    (hz : h * z + z ≤ T) :
    (stack_rev h T z).start = (stack h T z).stop + 4 ∧
    (stack_rev h T z).stop = (stack h T z).start + 4 ∧
    (stack_rev h T z).start ≤ (stack_rev h T z).stop := by
  refine ⟨rfl, rfl, ?_⟩
  show (stack h T z).stop + 4 ≤ (stack h T z).start + 4
  have := stack_stop_le_start h T z hT
  omega

/-- Witness for claim C6 at hart 1, top of stacks 100, stack size 10. -/
theorem stack_rev_from_stack_wit :
    (stack_rev 1 100 10).start = (stack 1 100 10).stop + 4 ∧
    (stack_rev 1 100 10).stop = (stack 1 100 10).start + 4 ∧
    (stack_rev 1 100 10).start ≤ (stack_rev 1 100 10).stop :=
  stack_rev_from_stack 1 100 10 (by norm_num) (by norm_num)

/-- Claim C5: for every region and stack pointer value (with sp <= start as
the unsigned-distance precondition of current_stack_in_use), the free-space
computation saturates: as integers, current_stack_free() equals
max 0 (stack_size() - current_stack_in_use()), so an overflow past end yields
0 rather than an underflow or an error. The function reads state and writes
nothing: in this embedding it is a pure function of its arguments. -/
theorem current_stack_free_saturating (h T z sp : Nat)
    (hsp : sp ≤ (stack h T z).start) :
    (current_stack_free h T z sp : Int) =
      max 0 ((stack_size h T z : Int) - (current_stack_in_use h T z sp : Int)) := by
  unfold current_stack_free
  omega

/-- Witness for claim C5: hart 0, top of stacks 4096, nominal size 4000 and
sp = 0, an overflowed stack (in use 4096 > size 4000), where the result
saturates to 0. -/
theorem current_stack_free_saturating_wit :
    (current_stack_free 0 4096 4000 0 : Int) =
      max 0 ((stack_size 0 4096 4000 : Int) - (current_stack_in_use 0 4096 4000 0 : Int)) :=
  current_stack_free_saturating 0 4096 4000 0 (by decide)

/-- Claim C9: current_stack_in_use() is start minus the stack pointer, and in
the scenario of a 4096-byte region with sp 2048 bytes below start the metrics
are in_use = 2048, free = 2048 and fraction = 1/2 (the f32 division is exact
here, modelled as rational division). -/
theorem stack_metrics_half_full (h T z sp : Nat)
    (hsize : stack_size h T z = 4096)
    (hsp : sp = (stack h T z).start - 2048) :
    current_stack_in_use h T z sp = (stack h T z).start - sp ∧
    current_stack_in_use h T z sp = 2048 ∧
    current_stack_free h T z sp = 2048 ∧
    current_stack_fraction h T z sp = 1 / 2 := by
  have hstart : 4096 ≤ (stack h T z).start := by
    unfold stack_size at hsize
    omega
  have huse : current_stack_in_use h T z sp = 2048 := by
    unfold current_stack_in_use
    omega
  refine ⟨rfl, huse, ?_, ?_⟩
  · unfold current_stack_free
    rw [huse, hsize]
  · unfold current_stack_fraction
    rw [huse, hsize]
    norm_num

/-- Witness for claim C9: hart 0, top of stacks 4096, size 4096, sp = 2048. -/
theorem stack_metrics_half_full_wit :
    current_stack_in_use 0 4096 4096 2048 = 2048 ∧
    current_stack_free 0 4096 4096 2048 = 2048 ∧
    current_stack_fraction 0 4096 4096 2048 = 1 / 2 := by
  have hw := stack_metrics_half_full 0 4096 4096 2048 (by decide) (by decide)
  exact ⟨hw.2.1, hw.2.2.1, hw.2.2.2⟩

/-- Claim C10: for every memory state and stack pointer, stack_painted()
returns at least 4 and never 0: the cursor starts one word above the region
end while the distance is measured from end itself, so the word at end is
never examined. In particular the result is exactly 4 when the first scanned
word (at end + 4) is not the sentinel, and also when sp <= end + 4. -/
theorem stack_painted_floor_four (h T z sp : Nat) (m : Nat → Nat) :
    4 ≤ stack_painted h T z sp m ∧
    (m ((stack h T z).stop + 4) ≠ STACK_PAINT_VALUE → stack_painted h T z sp m = 4) ∧
    (sp ≤ (stack h T z).stop + 4 → stack_painted h T z sp m = 4) := by
  unfold stack_painted
  refine ⟨?_, ?_, ?_⟩
  · have h1 := le_scanFrom sp m sp ((stack h T z).stop + 4) (by omega)
    omega
  · intro hm
    by_cases hsp : sp ≤ (stack h T z).stop + 4
    · rw [scanFrom_stop m hsp]
      omega
    · rw [scanFrom_hit hsp hm]
      omega
  · intro hsp
    rw [scanFrom_stop m hsp]
    omega

/-- Witness for claim C10: hart 0, top of stacks 0, size 0, sp 0, the zero
memory; the first scanned word is 0, not the sentinel, and the scanner
returns 4, not 0. -/
theorem stack_painted_floor_four_wit :
    stack_painted 0 0 0 0 (fun _ => 0) = 4 :=
  (stack_painted_floor_four 0 0 0 0 (fun _ => 0)).2.2 (by decide)

/-- Claim C4: for every memory state and every 4-byte aligned stack pointer,
repaint_stack() stores the sentinel at exactly the 4-byte aligned addresses a
with end + 4 <= a < sp (unconditionally for each such word), and leaves
unchanged every address at or above sp, every address at or below end + 3,
and every unaligned address. -/
theorem repaint_stack_frame_effect (h T z sp : Nat) (m : Nat → Nat)
    (hsp : 4 ∣ sp) :
    (∀ a, 4 ∣ a → (stack h T z).stop + 4 ≤ a → a < sp →
      repaint_stack h T z sp m a = STACK_PAINT_VALUE) ∧
    (∀ a, sp ≤ a → repaint_stack h T z sp m a = m a) ∧
    (∀ a, a ≤ (stack h T z).stop + 3 → repaint_stack h T z sp m a = m a) ∧
    (∀ a, ¬ 4 ∣ a → repaint_stack h T z sp m a = m a) := by
  have hstop : 4 ∣ (stack h T z).stop := four_dvd_alignDown4 _
  unfold repaint_stack
  refine ⟨?_, ?_, ?_, ?_⟩
  · intro a ha4 ha1 ha2
    rw [repaintFrom_eq sp sp _ m a (by omega)]
    rw [if_pos ⟨ha1, ha2, by omega⟩]
  · intro a ha
    rw [repaintFrom_eq sp sp _ m a (by omega)]
    rw [if_neg]
    rintro ⟨-, hlt, -⟩
    omega
  · intro a ha
    rw [repaintFrom_eq sp sp _ m a (by omega)]
    rw [if_neg]
    rintro ⟨hge, -, -⟩
    omega
  · intro a ha4
    rw [repaintFrom_eq sp sp _ m a (by omega)]
    rw [if_neg]
    rintro ⟨hge, -, hdvd⟩
    exact ha4 (by omega)

/-- Witness for claim C4: hart 0, top of stacks 8, size 8 (region start 8,
end 0), sp = 8, zero memory: the aligned address 4 inside the window is
painted and the address 8 (= sp) is untouched. -/
theorem repaint_stack_frame_effect_wit :
    repaint_stack 0 8 8 8 (fun _ => 0) 4 = STACK_PAINT_VALUE ∧
    repaint_stack 0 8 8 8 (fun _ => 0) 8 = 0 := by
  have hw := repaint_stack_frame_effect 0 8 8 8 (fun _ => 0) (by decide)
  exact ⟨hw.1 4 (by decide) (by decide) (by decide), hw.2.1 8 (by decide)⟩

/-- Claim C1 (amended): for every memory state and 4-byte aligned sp with
end < sp <= start, after repaint_stack() runs and a non-sentinel 32-bit value
is then written at word-aligned byte offset k from the region end, with
4 <= k < stack size and the written word below sp, the linear scanner
stack_painted() returns exactly k. The scan starts one word above end (the
word at offset 0 belongs to the neighbouring hart and is never examined),
which is why offset k = 0 is excluded: see the counterexample. -/
theorem stack_painted_after_paint_and_write
    (h T z sp k v : Nat) (m : Nat → Nat)
    (hsp4 : 4 ∣ sp)
    (hlo : (stack h T z).stop < sp)
    (hhi : sp ≤ (stack h T z).start)
    (hk4 : 4 ∣ k) (hk : 4 ≤ k)
    (hkS : k < stack_size h T z)
    (hbelow : (stack h T z).stop + k < sp)
    (hv : v < 2 ^ 32) (hvne : v ≠ STACK_PAINT_VALUE) :
    stack_painted h T z sp
      (writeWord (repaint_stack h T z sp m) ((stack h T z).stop + k) v) = k := by
  unfold stack_painted
  have hscan : scanFrom sp
      (writeWord (repaint_stack h T z sp m) ((stack h T z).stop + k) v)
      ((stack h T z).stop + 4) = (stack h T z).stop + k := by
    apply scanFrom_reaches sp _ k ((stack h T z).stop + 4) ((stack h T z).stop + k)
      (by omega) (by omega) (by omega) (by omega)
    · intro a ha1 ha2 ha3
      have hane : a ≠ (stack h T z).stop + k := by omega
      show (if a = (stack h T z).stop + k then v % 2 ^ 32
        else repaint_stack h T z sp m a) = STACK_PAINT_VALUE
      rw [if_neg hane]
      unfold repaint_stack
      rw [repaintFrom_eq sp sp _ m a (by omega)]
      rw [if_pos ⟨ha1, by omega, ha3⟩]
    · right
      show (if (stack h T z).stop + k = (stack h T z).stop + k then v % 2 ^ 32
        else repaint_stack h T z sp m ((stack h T z).stop + k)) ≠ STACK_PAINT_VALUE
      rw [if_pos rfl, Nat.mod_eq_of_lt hv]
      exact hvne
  rw [hscan]
  omega

/-- Witness for claim C1: hart 0, top of stacks 4096, size 4096 (region start
4096, end 0), sp = 4096, k = 4, value 0 written at address 4 after painting;
the scanner returns 4. -/
theorem stack_painted_after_paint_and_write_wit :
    stack_painted 0 4096 4096 4096
      (writeWord (repaint_stack 0 4096 4096 4096 (fun _ => 0))
        ((stack 0 4096 4096).stop + 4) 0) = 4 :=
  stack_painted_after_paint_and_write 0 4096 4096 4096 4 0 (fun _ => 0)
    (by decide) (by decide) (by decide) (by decide) (by decide) (by decide)
    (by decide) (by decide) (by decide)

/-- Claim C1 counterexample for the original statement, which admits k = 0:
with the region of hart 0, top of stacks 8, size 8 (start 8, end 0), aligned
sp = 8 with end < sp <= start, offset k = 0 word-aligned and below the stack
size 8, painting and then writing the non-sentinel value 5 at offset 0 from
end makes the scanner return 8, not k = 0: the scanner never examines the
word at end, so the claim fails at k = 0. -/
theorem stack_painted_offset_zero_cex :
    (4 : Nat) ∣ 8 ∧ (stack 0 8 8).stop < 8 ∧ 8 ≤ (stack 0 8 8).start ∧
    (4 : Nat) ∣ 0 ∧ 0 < stack_size 0 8 8 ∧ (stack 0 8 8).stop + 0 < 8 ∧
    (5 : Nat) ≠ STACK_PAINT_VALUE ∧
    stack_painted 0 8 8 8
      (writeWord (repaint_stack 0 8 8 8 (fun _ => 0)) ((stack 0 8 8).stop + 0) 5)
      = 8 ∧
    stack_painted 0 8 8 8
      (writeWord (repaint_stack 0 8 8 8 (fun _ => 0)) ((stack 0 8 8).stop + 0) 5)
      ≠ 0 := by
  have hstop : (stack 0 8 8).stop = 0 := by decide
  have hval : stack_painted 0 8 8 8
      (writeWord (repaint_stack 0 8 8 8 (fun _ => 0)) ((stack 0 8 8).stop + 0) 5)
      = 8 := by
    unfold stack_painted
    rw [hstop]
    have hm4 : writeWord (repaint_stack 0 8 8 8 (fun _ => 0))
        (0 + 0) 5 (0 + 4) = STACK_PAINT_VALUE := by
      show (if 0 + 4 = 0 + 0 then 5 % 2 ^ 32
        else repaint_stack 0 8 8 8 (fun _ => 0) (0 + 4)) = STACK_PAINT_VALUE
      rw [if_neg (by omega)]
      unfold repaint_stack
      rw [hstop, repaintFrom_eq 8 8 (0 + 4) _ (0 + 4) (by omega)]
      rw [if_pos ⟨by omega, by omega, by omega⟩]
    rw [scanFrom_cont (by omega) hm4]
    rw [scanFrom_stop _ (by omega : (8 : Nat) ≤ 0 + 4 + 4)]
  refine ⟨by decide, by decide, by decide, by decide, by decide, by decide,
    by decide, hval, ?_⟩
  rw [hval]
  omega

/-- Claim C2 fails on the code: on the region of hart 0 with top of stacks 8
and size 8 (start 8, end 0), sp = 8, and the memory memC2 that honours the
monotonic-write assumption with watermark byte offset k = 4 (sentinel at
every word offset below 4, non-sentinel at every word offset from 4 up to and
including the stack pointer), the linear scanner returns k = 4 but
stack_painted_binary() returns 0 = k - 4: the binary scanner multiplies the
partition-point word index by the word size without adding back the one-word
offset of the slice base end.add(1), so it is smaller than the linear result
by exactly 4 whenever the monotone assumption holds. -/
theorem stack_painted_binary_off_by_four :
    memC2 0 = STACK_PAINT_VALUE ∧
    memC2 4 ≠ STACK_PAINT_VALUE ∧ memC2 8 ≠ STACK_PAINT_VALUE ∧
    stack_painted 0 8 8 8 memC2 = 4 ∧
    stack_painted_binary 0 8 8 8 memC2 = 0 := by
  have hstop : (stack 0 8 8).stop = 0 := by decide
  refine ⟨rfl, by decide, by decide, ?_, ?_⟩
  · unfold stack_painted
    rw [hstop]
    rw [scanFrom_hit (by omega) (by decide : memC2 (0 + 4) ≠ STACK_PAINT_VALUE)]
  · unfold stack_painted_binary
    rw [hstop]
    have hlen : current_stack_free 0 8 8 8 / 4 = 2 := by decide
    rw [hlen]
    have hpp : partitionPointAux
        (fun i => memC2 (0 + 4 + 4 * i) == STACK_PAINT_VALUE) 0 2 = 0 := by
      apply partitionPointAux_eq _ 0 2 0 2 (by omega) (by omega) (by omega)
      intro i hi1 hi2
      have hne : 0 + 4 + 4 * i ≠ 0 := by omega
      simp only [memC2, if_neg hne, beq_iff_eq]
      constructor
      · intro hb
        exact absurd hb (by decide)
      · intro hb
        omega
    rw [hpp]
    decide
